import Mathlib

/-!
Verification of the Order Pack Allocation algorithm of
order-packs-calculator (file src/client/main.go).

The allocation core is the method pair `calculatePacks` /
`calculatePacksRecursive` on the `calculator` component.  We embed it
shallowly:

* Go's `int` is modelled by `Int`; Go's integer division `/` truncates
  toward zero, which is `Int.tdiv`.
* `calculatePacksRecursive` recurses with `packIndex` increasing by one
  and stopping at `len(c.packs)`; we realise this as structural recursion
  on the fuel `packs.length - packIndex` (the wrapper
  `calculatePacksRecursive` always passes exactly that fuel, so the
  fuel-zero clause coincides with the `packIndex >= len(c.packs)` part of
  the guard at line 218).
* Go runtime panics are modelled by `none`: the slice read
  `c.packs[packIndex-1]` at line 227 panics when `packIndex == 0` (index
  -1), and the division `items / pack.Size` at line 224 panics when
  `pack.Size == 0`.
* The method appends to the field `c.packQuantities`; the pure embedding
  returns the list of entries appended from the call onward.  A second,
  state-passing embedding (`CalcState`, `calculatePacksRecursiveSt`)
  keeps the two mutated fields (`c.packs`, `c.packQuantities`) explicit
  and is related to the pure one by `calculatePacksRecursiveStAux_eq`.
-/

/-- Go struct `Pack` (src/client/main.go): an ID and a size. -/
structure Pack where
  id : String
  size : Int
deriving DecidableEq, Repr

/-- Go struct `PackQuantity` (src/client/main.go): a pack size and the
number of packs of this size. -/
structure PackQuantity where
  pack : Int
  quantity : Int
deriving DecidableEq, Repr

/-- The size stored at position `i` of the catalog, i.e.
`c.packs[i].Size` (0 when out of range; every use in the embedding is
guarded so that `i` is in range). -/
def sizeAt (packs : List Pack) (i : Nat) : Int :=
  ((packs.get? i).map Pack.size).getD 0

/-- Lines 230-252 of src/client/main.go, parameterised by the possibly
substituted `size` (the local `pack.Size` after lines 226-228) and by
`packCount` (computed at line 224 against the ORIGINAL size, before the
substitution).  `recur` performs the recursive call of line 241:

```
if packCount > 0 { append {pack.Size, packCount}; items -= packCount*pack.Size }
if items > 0 {
  if packIndex < len(c.packs)-1 { recurse(items, packIndex+1) }
  else { append {c.packs[packIndex].Size, 1}; items = 0 }
}
```

The terminal fallback (lines 243-250) reads `c.packs[packIndex].Size`
from the catalog, hence the original, unsubstituted size. -/
def finishStep (packs : List Pack) (items : Int) (packIndex : Nat)
    (packCount size : Int)
    (recur : Int → Option (List PackQuantity)) :
    Option (List PackQuantity) :=
  let entries : List PackQuantity :=
    if 0 < packCount then [⟨size, packCount⟩] else []
  let items2 : Int :=
    if 0 < packCount then items - packCount * size else items
  if 0 < items2 then
    if packIndex < packs.length - 1 then
      (recur items2).map (fun rest => entries ++ rest)
    else
      some (entries ++ [⟨sizeAt packs packIndex, 1⟩])
  else some entries

/-- Fuel-indexed body of `calculatePacksRecursive` (src/client/main.go
lines 217-253).  The fuel is `packs.length - packIndex` at every call,
so the `0` clause is exactly the `packIndex >= len(c.packs)` part of the
guard at line 218.  `none` models a Go runtime panic. -/
def calculatePacksRecursiveAux (packs : List Pack) :
    Nat → Int → Nat → Option (List PackQuantity)
  | 0, _, _ => some []
  | fuel + 1, items, packIndex =>
    -- line 218: if items <= 0 || packIndex >= len(c.packs) { return }
    if items ≤ 0 ∨ packs.length ≤ packIndex then some []
    else
      -- line 222: pack := c.packs[packIndex] (a copy of the struct)
      if sizeAt packs packIndex = 0 then none -- line 224: division by zero
      else
        -- line 224: packCount := items / pack.Size (Go / truncates)
        let packCount : Int := Int.tdiv items (sizeAt packs packIndex)
        -- lines 226-228: boundary substitution on the local copy
        if packIndex = packs.length - 1 ∧
            0 < items - sizeAt packs packIndex then
          if packIndex = 0 then none -- c.packs[-1]: index out of range
          else
            finishStep packs items packIndex packCount
              (sizeAt packs (packIndex - 1))
              (fun items2 =>
                calculatePacksRecursiveAux packs fuel items2 (packIndex + 1))
        else
          finishStep packs items packIndex packCount
            (sizeAt packs packIndex)
            (fun items2 =>
              calculatePacksRecursiveAux packs fuel items2 (packIndex + 1))

/-- `calculatePacksRecursive` (src/client/main.go lines 217-253), pure
form: the list of `PackQuantity` entries appended by the call, or `none`
if the call panics. -/
def calculatePacksRecursive (packs : List Pack) (items : Int)
    (packIndex : Nat) : Option (List PackQuantity) :=
  calculatePacksRecursiveAux packs (packs.length - packIndex) items packIndex

/-- Insertion step of the descending sort: Go sorts `c.packs` with
`sort.Slice(..., c.packs[i].Size > c.packs[j].Size)` (lines 209-211);
we model that deterministic sort by insertion sort on the same key. -/
def insertPackDesc (p : Pack) : List Pack → List Pack
  | [] => [p]
  | q :: rest =>
    if q.size < p.size then p :: q :: rest else q :: insertPackDesc p rest

/-- Descending sort of the catalog by size (model of lines 209-211). -/
def sortPacksDesc : List Pack → List Pack
  | [] => []
  | p :: rest => insertPackDesc p (sortPacksDesc rest)

/-- `calculatePacks` (src/client/main.go lines 207-214): reset the plan,
sort the catalog descending by size, and run the recursive allocator
from index 0 on the requested item count. -/
def calculatePacks (packs : List Pack) (items : Int) :
    Option (List PackQuantity) :=
  calculatePacksRecursive (sortPacksDesc packs) items 0

/-- Total number of items shipped by a plan:
`sum(entry.packSize * entry.quantity)`. -/
def planTotal (plan : List PackQuantity) : Int :=
  (plan.map (fun e => e.pack * e.quantity)).sum

/-- The catalog is descending: each size is ≥ the next one. -/
def Descending (packs : List Pack) : Prop :=
  List.Chain' (fun a b => b.size ≤ a.size) packs

/-- Number of invocations of `calculatePacksRecursive` performed by a
call, mirroring the branch structure of `calculatePacksRecursiveAux`
exactly: every clause that returned there counts the one current
invocation, and the clause that recursed adds the callee's count. -/
def calculatePacksStepsAux (packs : List Pack) : Nat → Int → Nat → Nat
  | 0, _, _ => 1
  | fuel + 1, items, packIndex =>
    if items ≤ 0 ∨ packs.length ≤ packIndex then 1
    else
      if sizeAt packs packIndex = 0 then 1
      else
        let packCount : Int := Int.tdiv items (sizeAt packs packIndex)
        let finish : Int → Nat := fun size =>
          let items2 : Int :=
            if 0 < packCount then items - packCount * size else items
          if 0 < items2 then
            if packIndex < packs.length - 1 then
              1 + calculatePacksStepsAux packs fuel items2 (packIndex + 1)
            else 1
          else 1
        if packIndex = packs.length - 1 ∧
            0 < items - sizeAt packs packIndex then
          if packIndex = 0 then 1
          else finish (sizeAt packs (packIndex - 1))
        else finish (sizeAt packs packIndex)

/-- Step count of `calculatePacksRecursive packs items packIndex`. -/
def calculatePacksSteps (packs : List Pack) (items : Int)
    (packIndex : Nat) : Nat :=
  calculatePacksStepsAux packs (packs.length - packIndex) items packIndex

/-- The two fields of the `calculator` component that the allocation
pass touches: the catalog `c.packs` and the plan `c.packQuantities`. -/
structure CalcState where
  packs : List Pack
  packQuantities : List PackQuantity
deriving DecidableEq, Repr

/-- State-passing embedding of `calculatePacksRecursive` (lines
217-253): the catalog is read from `s.packs`, entries are appended to
`s.packQuantities`, and the line 226-228 substitution mutates only the
local copy `pack` of `c.packs[packIndex]` (Go structs are copied by
value at line 222), never `s.packs` itself. -/
def calculatePacksRecursiveStAux : Nat → CalcState → Int → Nat → Option CalcState
  | 0, s, _, _ => some s
  | fuel + 1, s, items, packIndex =>
    if items ≤ 0 ∨ s.packs.length ≤ packIndex then some s
    else
      if sizeAt s.packs packIndex = 0 then none
      else
        let packCount : Int := Int.tdiv items (sizeAt s.packs packIndex)
        let finish : Int → Option CalcState := fun size =>
          let s1 : CalcState :=
            if 0 < packCount then
              { s with packQuantities :=
                  s.packQuantities ++ [⟨size, packCount⟩] }
            else s
          let items2 : Int :=
            if 0 < packCount then items - packCount * size else items
          if 0 < items2 then
            if packIndex < s.packs.length - 1 then
              calculatePacksRecursiveStAux fuel s1 items2 (packIndex + 1)
            else
              some { s1 with packQuantities :=
                  s1.packQuantities ++ [⟨sizeAt s.packs packIndex, 1⟩] }
          else some s1
        if packIndex = s.packs.length - 1 ∧
            0 < items - sizeAt s.packs packIndex then
          if packIndex = 0 then none
          else finish (sizeAt s.packs (packIndex - 1))
        else finish (sizeAt s.packs packIndex)

/-- State-passing `calculatePacksRecursive`. -/
def calculatePacksRecursiveSt (s : CalcState) (items : Int)
    (packIndex : Nat) : Option CalcState :=
  calculatePacksRecursiveStAux (s.packs.length - packIndex) s items packIndex

/-- State-passing `calculatePacks` (lines 207-214): `c.packQuantities`
is reset to nil, `c.packs` is sorted descending in place, then the
recursive allocator runs from index 0. -/
def calculatePacksSt (s : CalcState) (items : Int) : Option CalcState :=
  calculatePacksRecursiveSt
    { packs := sortPacksDesc s.packs, packQuantities := [] } items 0

/-! ### Helper lemmas -/

theorem tdiv_facts (a b : Int) (ha : 0 < a) (hb : 0 < b) :
    0 ≤ a.tdiv b ∧ a.tdiv b * b ≤ a ∧ a - b < a.tdiv b * b := by
  have he : a.tdiv b = a / b := Int.tdiv_eq_ediv (le_of_lt ha) (le_of_lt hb)
  have h1 := Int.ediv_add_emod a b
  have h2 := Int.emod_nonneg a (ne_of_gt hb)
  have h3 := Int.emod_lt_of_pos a hb
  have h4 : b * (a / b) = a / b * b := mul_comm b (a / b)
  rw [he]
  exact ⟨Int.ediv_nonneg (le_of_lt ha) (le_of_lt hb), by linarith, by linarith⟩

theorem one_le_tdiv (a b : Int) (hb : 0 < b) (hba : b ≤ a) : 1 ≤ a.tdiv b := by
  have he : a.tdiv b = a / b := Int.tdiv_eq_ediv (by omega) (by omega)
  rw [he]
  exact (Int.le_ediv_iff_mul_le hb).2 (by omega)

theorem tdiv_eq_zero_of_lt_pos (a b : Int) (ha : 0 < a) (hab : a < b) :
    a.tdiv b = 0 := by
  have he : a.tdiv b = a / b := Int.tdiv_eq_ediv (by omega) (by omega)
  rw [he]
  exact Int.ediv_eq_zero_of_lt (by omega) hab

theorem sizeAt_eq_get (packs : List Pack) (i : Nat) (h : i < packs.length) :
    sizeAt packs i = (packs.get ⟨i, h⟩).size := by
  simp [sizeAt, List.getElem?_eq_getElem h]

theorem sizeAt_pos (packs : List Pack) (i : Nat)
    (hpos : ∀ p ∈ packs, 0 < p.size) (h : i < packs.length) :
    0 < sizeAt packs i := by
  rw [sizeAt_eq_get packs i h]
  exact hpos _ (List.get_mem ..)

theorem sizeAt_mem (packs : List Pack) (i : Nat) (h : i < packs.length) :
    sizeAt packs i ∈ packs.map Pack.size := by
  rw [sizeAt_eq_get packs i h]
  exact List.mem_map_of_mem _ (List.get_mem ..)

theorem descending_adjacent (packs : List Pack) (hdesc : Descending packs)
    (i : Nat) (h : i + 1 < packs.length) :
    sizeAt packs (i + 1) ≤ sizeAt packs i := by
  rw [sizeAt_eq_get packs i (by omega), sizeAt_eq_get packs (i + 1) h]
  exact List.chain'_iff_get.1 hdesc i (by omega)

theorem aux_nonpos (packs : List Pack) (fuel : Nat) (items : Int)
    (packIndex : Nat) (h : items ≤ 0) :
    calculatePacksRecursiveAux packs fuel items packIndex = some [] := by
  cases fuel with
  | zero => rfl
  | succ fuel => simp [calculatePacksRecursiveAux, if_pos (Or.inl h)]

theorem insertPackDesc_perm (p : Pack) (l : List Pack) :
    (insertPackDesc p l).Perm (p :: l) := by
  induction l with
  | nil => exact List.Perm.refl _
  | cons q rest ih =>
    by_cases h : q.size < p.size
    · simp [insertPackDesc, if_pos h]
    · rw [insertPackDesc, if_neg h]
      exact (ih.cons q).trans (List.Perm.swap p q rest)

theorem sortPacksDesc_perm (l : List Pack) : (sortPacksDesc l).Perm l := by
  induction l with
  | nil => exact List.Perm.refl _
  | cons p rest ih =>
    exact (insertPackDesc_perm p (sortPacksDesc rest)).trans (ih.cons p)
theorem aux_covers (packs : List Pack) (hdesc : Descending packs)
    (hpos : ∀ p ∈ packs, 0 < p.size) :
    ∀ (fuel : Nat) (items : Int) (packIndex : Nat) (plan : List PackQuantity),
      packs.length ≤ packIndex + fuel → packIndex < packs.length →
      0 < items →
      calculatePacksRecursiveAux packs fuel items packIndex = some plan →
      items ≤ planTotal plan := by
  intro fuel
  induction fuel with
  | zero => intro items idx plan hfuel hidx hi _; omega
  | succ fuel ih =>
    intro items idx plan hfuel hidx hi h
    have hs0 : 0 < sizeAt packs idx := sizeAt_pos packs idx hpos hidx
    simp only [calculatePacksRecursiveAux] at h
    rw [if_neg (show ¬(items ≤ 0 ∨ packs.length ≤ idx) by omega)] at h
    rw [if_neg (ne_of_gt hs0)] at h
    by_cases hfire : idx = packs.length - 1 ∧ 0 < items - sizeAt packs idx
    · rw [if_pos hfire] at h
      by_cases hz : idx = 0
      · rw [if_pos hz] at h; exact absurd h (by simp)
      · rw [if_neg hz] at h
        obtain ⟨hlast, hgt⟩ := hfire
        have hadj : sizeAt packs idx ≤ sizeAt packs (idx - 1) := by
          have := descending_adjacent packs hdesc (idx - 1) (by omega)
          rwa [show idx - 1 + 1 = idx by omega] at this
        have hcpos : 0 < Int.tdiv items (sizeAt packs idx) :=
          one_le_tdiv items (sizeAt packs idx) hs0 (by omega)
        have hfacts := tdiv_facts items (sizeAt packs idx) hi hs0
        simp only [finishStep, if_pos hcpos] at h
        rw [if_neg (show ¬(idx < packs.length - 1) by omega)] at h
        set s1 := sizeAt packs (idx - 1) with hs1def
        set s0 := sizeAt packs idx with hs0def
        set c := Int.tdiv items s0 with hcdef
        have h5 : c * s0 ≤ c * s1 :=
          mul_le_mul_of_nonneg_left hadj (by linarith)
        by_cases hrem : 0 < items - c * s1
        · rw [if_pos hrem] at h
          have hplan : plan = [⟨s1, c⟩, ⟨s0, 1⟩] := by simpa using h.symm
          subst hplan
          simp only [planTotal, List.map_cons, List.map_nil, List.sum_cons,
            List.sum_nil]
          nlinarith [hfacts.2.2, mul_comm c s1]
        · rw [if_neg hrem] at h
          have hplan : plan = [⟨s1, c⟩] := by simpa using h.symm
          subst hplan
          simp only [planTotal, List.map_cons, List.map_nil, List.sum_cons,
            List.sum_nil]
          nlinarith [mul_comm c s1]
    · rw [if_neg hfire] at h
      simp only [finishStep] at h
      set s0 := sizeAt packs idx with hs0def
      set c := Int.tdiv items s0 with hcdef
      by_cases hcpos : 0 < c
      · simp only [if_pos hcpos] at h
        have hfacts := tdiv_facts items s0 hi hs0
        by_cases hrem : 0 < items - c * s0
        · rw [if_pos hrem] at h
          by_cases hlt : idx < packs.length - 1
          · rw [if_pos hlt] at h
            cases haux : calculatePacksRecursiveAux packs fuel
                (items - c * s0) (idx + 1) with
            | none => rw [haux] at h; exact absurd h (by simp)
            | some rest =>
              rw [haux] at h
              have hplan : plan = ⟨s0, c⟩ :: rest := by simpa using h.symm
              subst hplan
              have hrec := ih (items - c * s0) (idx + 1) rest
                (by omega) (by omega) hrem haux
              simp only [planTotal, List.map_cons, List.sum_cons] at hrec ⊢
              nlinarith [mul_comm c s0]
          · rw [if_neg hlt] at h
            have hlast : idx = packs.length - 1 := by omega
            have hle : items - s0 ≤ 0 := by
              by_contra hx
              exact hfire ⟨hlast, by omega⟩
            have hplan : plan = [⟨s0, c⟩, ⟨s0, 1⟩] := by simpa using h.symm
            subst hplan
            simp only [planTotal, List.map_cons, List.map_nil, List.sum_cons,
              List.sum_nil]
            nlinarith
        · rw [if_neg hrem] at h
          have hplan : plan = [⟨s0, c⟩] := by simpa using h.symm
          subst hplan
          simp only [planTotal, List.map_cons, List.map_nil, List.sum_cons,
            List.sum_nil]
          nlinarith [mul_comm c s0]
      · simp only [if_neg hcpos] at h
        rw [if_pos hi] at h
        by_cases hlt : idx < packs.length - 1
        · rw [if_pos hlt] at h
          cases haux : calculatePacksRecursiveAux packs fuel items (idx + 1) with
          | none => rw [haux] at h; exact absurd h (by simp)
          | some rest =>
            rw [haux] at h
            have hplan : plan = rest := by simpa using h.symm
            subst hplan
            exact ih items (idx + 1) plan (by omega) (by omega) hi haux
        · rw [if_neg hlt] at h
          have hplan : plan = [⟨s0, 1⟩] := by simpa using h.symm
          subst hplan
          have hlt2 : items < s0 := by
            by_contra hx
            push_neg at hx
            exact hcpos (one_le_tdiv items s0 hs0 hx)
          simp only [planTotal, List.map_cons, List.map_nil, List.sum_cons,
            List.sum_nil]
          nlinarith
theorem aux_entries (packs : List Pack) :
    ∀ (fuel : Nat) (items : Int) (packIndex : Nat) (plan : List PackQuantity),
      calculatePacksRecursiveAux packs fuel items packIndex = some plan →
      ∀ e ∈ plan, 0 < e.quantity ∧ e.pack ∈ packs.map Pack.size := by
  intro fuel
  induction fuel with
  | zero =>
    intro items idx plan h e he
    simp only [calculatePacksRecursiveAux] at h
    have : plan = [] := by simpa using h.symm
    subst this
    simp at he
  | succ fuel ih =>
    intro items idx plan h e he
    simp only [calculatePacksRecursiveAux] at h
    by_cases hguard : items ≤ 0 ∨ packs.length ≤ idx
    · rw [if_pos hguard] at h
      have : plan = [] := by simpa using h.symm
      subst this
      simp at he
    · rw [if_neg hguard] at h
      have hidx : idx < packs.length := by omega
      by_cases hs0 : sizeAt packs idx = 0
      · rw [if_pos hs0] at h; exact absurd h (by simp)
      · rw [if_neg hs0] at h
        -- common handling of the two finishStep sites
        have main : ∀ size : Int, size ∈ packs.map Pack.size →
            finishStep packs items idx (Int.tdiv items (sizeAt packs idx))
              size (fun items2 =>
                calculatePacksRecursiveAux packs fuel items2 (idx + 1)) =
              some plan →
            0 < e.quantity ∧ e.pack ∈ packs.map Pack.size := by
          intro size hmem hf
          simp only [finishStep] at hf
          by_cases hc : 0 < Int.tdiv items (sizeAt packs idx)
          · simp only [if_pos hc] at hf
            by_cases hrem : 0 < items - Int.tdiv items (sizeAt packs idx) * size
            · rw [if_pos hrem] at hf
              by_cases hlt : idx < packs.length - 1
              · rw [if_pos hlt] at hf
                cases haux : calculatePacksRecursiveAux packs fuel
                    (items - Int.tdiv items (sizeAt packs idx) * size)
                    (idx + 1) with
                | none => rw [haux] at hf; exact absurd hf (by simp)
                | some rest =>
                  rw [haux] at hf
                  have hplan : plan = ⟨size, Int.tdiv items (sizeAt packs idx)⟩ :: rest := by
                    simpa using hf.symm
                  subst hplan
                  rw [List.mem_cons] at he
                  rcases he with he | he
                  · subst he; exact ⟨hc, hmem⟩
                  · exact ih _ _ rest haux e he
              · rw [if_neg hlt] at hf
                have hplan : plan =
                    [⟨size, Int.tdiv items (sizeAt packs idx)⟩,
                     ⟨sizeAt packs idx, 1⟩] := by simpa using hf.symm
                subst hplan
                rw [List.mem_cons] at he
                rcases he with he | he
                · subst he; exact ⟨hc, hmem⟩
                · have : e = (⟨sizeAt packs idx, 1⟩ : PackQuantity) := by
                    simpa using he
                  subst this
                  exact ⟨by norm_num, sizeAt_mem packs idx hidx⟩
            · rw [if_neg hrem] at hf
              have hplan : plan = [⟨size, Int.tdiv items (sizeAt packs idx)⟩] := by
                simpa using hf.symm
              subst hplan
              have : e = (⟨size, Int.tdiv items (sizeAt packs idx)⟩ : PackQuantity) := by
                simpa using he
              subst this
              exact ⟨hc, hmem⟩
          · simp only [if_neg hc] at hf
            by_cases hip : 0 < items
            · rw [if_pos hip] at hf
              by_cases hlt : idx < packs.length - 1
              · rw [if_pos hlt] at hf
                cases haux : calculatePacksRecursiveAux packs fuel items (idx + 1) with
                | none => rw [haux] at hf; exact absurd hf (by simp)
                | some rest =>
                  rw [haux] at hf
                  have hplan : plan = rest := by simpa using hf.symm
                  subst hplan
                  exact ih _ _ plan haux e he
              · rw [if_neg hlt] at hf
                have hplan : plan = [⟨sizeAt packs idx, 1⟩] := by simpa using hf.symm
                subst hplan
                have : e = (⟨sizeAt packs idx, 1⟩ : PackQuantity) := by simpa using he
                subst this
                exact ⟨by norm_num, sizeAt_mem packs idx hidx⟩
            · rw [if_neg hip] at hf
              have hplan : plan = [] := by simpa using hf.symm
              subst hplan
              simp at he
        by_cases hfire : idx = packs.length - 1 ∧ 0 < items - sizeAt packs idx
        · rw [if_pos hfire] at h
          by_cases hz : idx = 0
          · rw [if_pos hz] at h; exact absurd h (by simp)
          · rw [if_neg hz] at h
            exact main (sizeAt packs (idx - 1))
              (sizeAt_mem packs (idx - 1) (by omega)) h
        · rw [if_neg hfire] at h
          exact main (sizeAt packs idx) (sizeAt_mem packs idx hidx) h
theorem stepsAux_le (packs : List Pack) :
    ∀ (fuel : Nat) (items : Int) (packIndex : Nat),
      packIndex < packs.length →
      calculatePacksStepsAux packs fuel items packIndex ≤
        packs.length - packIndex := by
  intro fuel
  induction fuel with
  | zero => intro items idx hidx; simp [calculatePacksStepsAux]; omega
  | succ fuel ih =>
    intro items idx hidx
    simp only [calculatePacksStepsAux]
    by_cases hguard : items ≤ 0 ∨ packs.length ≤ idx
    · rw [if_pos hguard]; omega
    · rw [if_neg hguard]
      by_cases hs0 : sizeAt packs idx = 0
      · rw [if_pos hs0]; omega
      · rw [if_neg hs0]
        have main : ∀ size : Int,
            (let items2 : Int :=
              if 0 < Int.tdiv items (sizeAt packs idx) then
                items - Int.tdiv items (sizeAt packs idx) * size
              else items
            if 0 < items2 then
              if idx < packs.length - 1 then
                1 + calculatePacksStepsAux packs fuel items2 (idx + 1)
              else 1
            else 1) ≤ packs.length - idx := by
          intro size
          simp only
          by_cases hrem : 0 < (if 0 < Int.tdiv items (sizeAt packs idx) then
              items - Int.tdiv items (sizeAt packs idx) * size else items)
          · rw [if_pos hrem]
            by_cases hlt : idx < packs.length - 1
            · rw [if_pos hlt]
              have := ih (if 0 < Int.tdiv items (sizeAt packs idx) then
                items - Int.tdiv items (sizeAt packs idx) * size else items)
                (idx + 1) (by omega)
              omega
            · rw [if_neg hlt]; omega
          · rw [if_neg hrem]; omega
        by_cases hfire : idx = packs.length - 1 ∧ 0 < items - sizeAt packs idx
        · rw [if_pos hfire]
          by_cases hz : idx = 0
          · rw [if_pos hz]; omega
          · rw [if_neg hz]; exact main _
        · rw [if_neg hfire]; exact main _
theorem calculatePacksRecursiveStAux_eq :
    ∀ (fuel : Nat) (s : CalcState) (items : Int) (packIndex : Nat),
      calculatePacksRecursiveStAux fuel s items packIndex =
        (calculatePacksRecursiveAux s.packs fuel items packIndex).map
          (fun plan =>
            ⟨s.packs, s.packQuantities ++ plan⟩) := by
  intro fuel
  induction fuel with
  | zero =>
    intro s items idx
    simp [calculatePacksRecursiveStAux, calculatePacksRecursiveAux]
  | succ fuel ih =>
    intro s items idx
    simp only [calculatePacksRecursiveStAux, calculatePacksRecursiveAux]
    by_cases hguard : items ≤ 0 ∨ s.packs.length ≤ idx
    · rw [if_pos hguard, if_pos hguard]
      simp
    · rw [if_neg hguard, if_neg hguard]
      by_cases hs0 : sizeAt s.packs idx = 0
      · rw [if_pos hs0, if_pos hs0]
        simp
      · rw [if_neg hs0, if_neg hs0]
        have main : ∀ size : Int,
            (let s1 : CalcState :=
              if 0 < Int.tdiv items (sizeAt s.packs idx) then
                { s with packQuantities := s.packQuantities ++
                    [⟨size, Int.tdiv items (sizeAt s.packs idx)⟩] }
              else s
            let items2 : Int :=
              if 0 < Int.tdiv items (sizeAt s.packs idx) then
                items - Int.tdiv items (sizeAt s.packs idx) * size
              else items
            if 0 < items2 then
              if idx < s.packs.length - 1 then
                calculatePacksRecursiveStAux fuel s1 items2 (idx + 1)
              else
                some { s1 with packQuantities :=
                    s1.packQuantities ++ [⟨sizeAt s.packs idx, 1⟩] }
            else some s1) =
            (finishStep s.packs items idx
              (Int.tdiv items (sizeAt s.packs idx)) size
              (fun items2 =>
                calculatePacksRecursiveAux s.packs fuel items2 (idx + 1))).map
              (fun plan => ⟨s.packs, s.packQuantities ++ plan⟩) := by
          intro size
          simp only [finishStep]
          by_cases hc : 0 < Int.tdiv items (sizeAt s.packs idx)
          · simp only [if_pos hc]
            by_cases hrem : 0 < items - Int.tdiv items (sizeAt s.packs idx) * size
            · rw [if_pos hrem, if_pos hrem]
              by_cases hlt : idx < s.packs.length - 1
              · rw [if_pos hlt, if_pos hlt]
                rw [ih]
                cases calculatePacksRecursiveAux s.packs fuel
                    (items - Int.tdiv items (sizeAt s.packs idx) * size)
                    (idx + 1) with
                | none => simp
                | some rest => simp
              · rw [if_neg hlt, if_neg hlt]
                simp
            · rw [if_neg hrem, if_neg hrem]
              simp
          · simp only [if_neg hc]
            by_cases hip : 0 < items
            · rw [if_pos hip, if_pos hip]
              by_cases hlt : idx < s.packs.length - 1
              · rw [if_pos hlt, if_pos hlt]
                rw [ih]
                cases calculatePacksRecursiveAux s.packs fuel items (idx + 1) with
                | none => simp
                | some rest => simp
              · rw [if_neg hlt, if_neg hlt]
                simp
            · rw [if_neg hip, if_neg hip]
              simp
        by_cases hfire : idx = s.packs.length - 1 ∧
            0 < items - sizeAt s.packs idx
        · rw [if_pos hfire, if_pos hfire]
          by_cases hz : idx = 0
          · rw [if_pos hz, if_pos hz]; simp
          · rw [if_neg hz, if_neg hz]; exact main _
        · rw [if_neg hfire, if_neg hfire]; exact main _

/-! ### Claim theorems -/

/-- C1: for the catalog {5000, 2000, 1000, 500, 250} sorted descending,
`calculatePacks` (Allocate) returns exactly the reference plans:
demand 1 → [{250, 1}], demand 250 → [{250, 1}], demand 251 → [{500, 1}],
demand 501 → [{500, 1}, {250, 1}]. -/
theorem allocate_reference_plans :
    calculatePacks [⟨"", 5000⟩, ⟨"", 2000⟩, ⟨"", 1000⟩, ⟨"", 500⟩, ⟨"", 250⟩]
        1 = some [⟨250, 1⟩] ∧
    calculatePacks [⟨"", 5000⟩, ⟨"", 2000⟩, ⟨"", 1000⟩, ⟨"", 500⟩, ⟨"", 250⟩]
        250 = some [⟨250, 1⟩] ∧
    calculatePacks [⟨"", 5000⟩, ⟨"", 2000⟩, ⟨"", 1000⟩, ⟨"", 500⟩, ⟨"", 250⟩]
        251 = some [⟨500, 1⟩] ∧
    calculatePacks [⟨"", 5000⟩, ⟨"", 2000⟩, ⟨"", 1000⟩, ⟨"", 500⟩, ⟨"", 250⟩]
        501 = some [⟨500, 1⟩, ⟨250, 1⟩] := by
  refine ⟨by decide, by decide, by decide, by decide⟩

/-- C9: the allocator is deterministic — two invocations of
`calculatePacks` with identical catalog and demand produce identical
plans; the embedding is a pure function of its arguments. -/
theorem allocate_deterministic (packs : List Pack) (items : Int) :
    calculatePacks packs items = calculatePacks packs items := rfl

/-- C5: `calculatePacks` returns an empty plan for every demand ≤ 0
(whatever the catalog), and returns an empty plan — not an error — for
an empty catalog with positive demand. -/
theorem allocate_empty_plan_cases :
    (∀ (packs : List Pack) (items : Int), items ≤ 0 →
      calculatePacks packs items = some []) ∧
    (∀ items : Int, 0 < items → calculatePacks [] items = some []) := by
  constructor
  · intro packs items h
    exact aux_nonpos (sortPacksDesc packs) _ items 0 h
  · intro items _
    rfl

/-- C5 witness: demand -3 on a non-empty catalog and demand 7 on the
empty catalog both give the empty plan. -/
theorem allocate_empty_plan_cases_witness :
    calculatePacks [⟨"", 5⟩] (-3) = some [] ∧
    calculatePacks [] 7 = some [] :=
  ⟨allocate_empty_plan_cases.1 [⟨"", 5⟩] (-3) (by decide),
   allocate_empty_plan_cases.2 7 (by decide)⟩

/-- C3 counterexample: on the single-size catalog [{250}] with demand
600 the substitution condition of lines 226-228 DOES take effect
(600 - 250 > 0 at the last — and only — index), and the read
`c.packs[packIndex-1]` is an index-out-of-range panic (index -1), so
the allocator does not complete normally: the embedding returns `none`. -/
theorem singleton_substitution_panics :
    calculatePacksRecursive [⟨"", 250⟩] 600 0 = none := by decide

/-- C3 amended: for a single-size catalog with positive size, the
boundary substitution condition stays dormant only when demand ≤ size;
in that case the allocator completes normally (and for 0 < demand the
terminal fallback / exact-fit entry covers the order with one smallest
pack).  When demand > size the condition fires and the allocator aborts
on the out-of-range read of `sizes[index-1]`. -/
theorem singleton_catalog_behavior (p : Pack) (d : Int) (hs : 0 < p.size) :
    calculatePacksRecursive [p] d 0 =
      (if d ≤ 0 then some []
       else if d - p.size ≤ 0 then some [⟨p.size, 1⟩]
       else none) := by
  have hsz : sizeAt [p] 0 = p.size := rfl
  unfold calculatePacksRecursive
  simp only [List.length_singleton, calculatePacksRecursiveAux, hsz]
  by_cases hd : d ≤ 0
  · rw [if_pos (Or.inl hd), if_pos hd]
  · rw [if_neg (show ¬(d ≤ 0 ∨ (1:Nat) ≤ 0) by omega), if_neg hd,
      if_neg (ne_of_gt hs)]
    by_cases hfd : 0 < d - p.size
    · rw [if_pos ⟨by norm_num, hfd⟩]
      simp [show ¬(d - p.size ≤ 0) by omega]
    · rw [if_neg (fun hcon => hfd hcon.2), if_pos (by omega)]
      have hdp : d < p.size ∨ d = p.size := by omega
      rcases hdp with hlt | heq
      · rw [show Int.tdiv d p.size = 0 from
          tdiv_eq_zero_of_lt_pos d p.size (by omega) hlt]
        simp [finishStep, hsz, show ¬(d ≤ 0) from hd, show (0:Int) < d by omega]
      · rw [show Int.tdiv d p.size = 1 by rw [heq]; exact Int.tdiv_self (by omega)]
        simp [finishStep, hsz, heq]

/-- C3 amended witness: catalog [{250}], demand 100 ≤ 250: the allocator
completes with the single fallback entry [{250, 1}]. -/
theorem singleton_catalog_behavior_witness :
    calculatePacksRecursive [⟨"", 250⟩] 100 0 =
      (if (100:Int) ≤ 0 then some []
       else if (100:Int) - 250 ≤ 0 then some [⟨250, 1⟩]
       else none) :=
  singleton_catalog_behavior ⟨"", 250⟩ 100 (by decide)

/-- C7: for every non-empty catalog and positive demand the allocator
performs at most `packs.length` recursive invocations; the bound does
not depend on the magnitude of the demand. -/
theorem allocate_steps_bounded (packs : List Pack) (items : Int)
    (hne : packs ≠ []) (_hd : 0 < items) :
    calculatePacksSteps packs items 0 ≤ packs.length := by
  unfold calculatePacksSteps
  have h0 : 0 < packs.length := List.length_pos.2 hne
  have := stepsAux_le packs (packs.length - 0) items 0 h0
  omega

/-- C7 witness: two pack sizes, demand 10^9: at most 2 recursive steps. -/
theorem allocate_steps_bounded_witness :
    calculatePacksSteps [⟨"", 500⟩, ⟨"", 250⟩] 1000000000 0 ≤ 2 :=
  allocate_steps_bounded [⟨"", 500⟩, ⟨"", 250⟩] 1000000000
    (by decide) (by decide)

/-- C10: the allocation pass never modifies the catalog: whenever the
state-passing `calculatePacks` returns, the catalog field equals exactly
the result of the initial descending sort (the lines 226-228
substitution only mutates the local copy `pack`), so the terminal
fallback of lines 243-250 reads the unmodified smallest size. -/
theorem allocate_preserves_catalog (s : CalcState) (items : Int)
    (s2 : CalcState) (h : calculatePacksSt s items = some s2) :
    s2.packs = sortPacksDesc s.packs := by
  unfold calculatePacksSt calculatePacksRecursiveSt at h
  rw [calculatePacksRecursiveStAux_eq] at h
  cases haux : calculatePacksRecursiveAux (sortPacksDesc s.packs)
      ((sortPacksDesc s.packs).length - 0) items 0 with
  | none => rw [haux] at h; exact absurd h (by simp)
  | some plan =>
    rw [haux] at h
    have : s2 = ⟨sortPacksDesc s.packs, plan⟩ := by simpa using h.symm
    rw [this]

/-- C10 witness: catalog [{a,250},{b,500}], demand 300: the returned
state's catalog is exactly the descending sort of the input catalog. -/
theorem allocate_preserves_catalog_witness :
    (⟨[⟨"b", 500⟩, ⟨"a", 250⟩], [⟨500, 1⟩]⟩ : CalcState).packs =
      sortPacksDesc [⟨"a", 250⟩, ⟨"b", 500⟩] :=
  allocate_preserves_catalog ⟨[⟨"a", 250⟩, ⟨"b", 500⟩], [⟨7, 7⟩]⟩ 300
    ⟨[⟨"b", 500⟩, ⟨"a", 250⟩], [⟨500, 1⟩]⟩ (by decide)

/-- C2: when the boundary substitution fires at the last index
(remaining − smallest size > 0, at least two sizes), the recorded
quantity is `items / sizes[last]` computed against the ORIGINAL smallest
size (never recomputed), while both the recorded pack size and the
amount subtracted from the remainder use the substituted second-smallest
size: the step appends {sizes[last-1], items/sizes[last]} and continues
with remainder items − (items/sizes[last])·sizes[last-1] (count first,
then substitute, then append and subtract). -/
theorem substitution_keeps_original_count (packs : List Pack) (items : Int)
    (h2 : 2 ≤ packs.length)
    (hs : 0 < sizeAt packs (packs.length - 1))
    (hfire : 0 < items - sizeAt packs (packs.length - 1)) :
    calculatePacksRecursive packs items (packs.length - 1) =
      some (⟨sizeAt packs (packs.length - 2),
              Int.tdiv items (sizeAt packs (packs.length - 1))⟩ ::
        (if 0 < items - Int.tdiv items (sizeAt packs (packs.length - 1)) *
              sizeAt packs (packs.length - 2)
         then [⟨sizeAt packs (packs.length - 1), 1⟩] else [])) := by
  have hflen : packs.length - (packs.length - 1) = 1 := by omega
  unfold calculatePacksRecursive
  rw [hflen]
  simp only [calculatePacksRecursiveAux]
  rw [if_neg (show ¬(items ≤ 0 ∨ packs.length ≤ packs.length - 1) by omega)]
  rw [if_neg (ne_of_gt hs)]
  rw [if_pos (show _ ∧ 0 < items - sizeAt packs (packs.length - 1) from
    ⟨by trivial, hfire⟩)]
  rw [if_neg (show ¬(packs.length - 1 = 0) by omega)]
  rw [show packs.length - 1 - 1 = packs.length - 2 from by omega]
  have hc : 0 < Int.tdiv items (sizeAt packs (packs.length - 1)) :=
    one_le_tdiv _ _ hs (by omega)
  simp only [finishStep, if_pos hc]
  rw [if_neg (show ¬(packs.length - 1 < packs.length - 1) by omega)]
  by_cases hrem : 0 < items -
      Int.tdiv items (sizeAt packs (packs.length - 1)) *
        sizeAt packs (packs.length - 2)
  · rw [if_pos hrem, if_pos hrem]
    simp
  · rw [if_neg hrem, if_neg hrem]

/-- C2 witness: catalog [{251}, {250}], remaining 252 at the last index:
count 252/250 = 1 is kept from the original size 250, the entry records
the substituted size 251, and 1·251 is subtracted (remainder 1 > 0, so
the fallback {250, 1} follows). -/
theorem substitution_keeps_original_count_witness :
    calculatePacksRecursive [⟨"", 251⟩, ⟨"", 250⟩] 252 1 =
      some (⟨251, Int.tdiv 252 250⟩ ::
        (if 0 < (252:Int) - Int.tdiv 252 250 * 251
         then [⟨250, 1⟩] else [])) :=
  substitution_keeps_original_count [⟨"", 251⟩, ⟨"", 250⟩] 252
    (by decide) (by decide) (by decide)

/-- C6: whenever the allocator is at the last index with a positive
remainder after the count-based deduction (`count` computed against the
original smallest size, deduction using the possibly substituted size),
it appends exactly one final entry {original smallest size, 1} after the
frame's count entry, and terminates (the plan is exactly those entries,
i.e. remaining is treated as 0). -/
theorem terminal_fallback_entry (packs : List Pack) (items count size : Int)
    (h1 : 1 ≤ packs.length)
    (hitems : 0 < items)
    (hs0 : 0 < sizeAt packs (packs.length - 1))
    (hcount : count = Int.tdiv items (sizeAt packs (packs.length - 1)))
    (hsize : size = if 0 < items - sizeAt packs (packs.length - 1)
        then sizeAt packs (packs.length - 2)
        else sizeAt packs (packs.length - 1))
    (hsafe : items ≤ sizeAt packs (packs.length - 1) ∨ 2 ≤ packs.length)
    (hrem : 0 < items - count * size) :
    calculatePacksRecursive packs items (packs.length - 1) =
      some ((if 0 < count then [⟨size, count⟩] else []) ++
        [⟨sizeAt packs (packs.length - 1), 1⟩]) := by
  subst hcount
  subst hsize
  have hflen : packs.length - (packs.length - 1) = 1 := by omega
  unfold calculatePacksRecursive
  rw [hflen]
  simp only [calculatePacksRecursiveAux]
  rw [if_neg (show ¬(items ≤ 0 ∨ packs.length ≤ packs.length - 1) by omega)]
  rw [if_neg (ne_of_gt hs0)]
  by_cases hfire : 0 < items - sizeAt packs (packs.length - 1)
  · have hlen2 : 2 ≤ packs.length := by
      rcases hsafe with hx | hx
      · omega
      · exact hx
    rw [if_pos hfire] at hrem ⊢
    rw [if_pos (show _ ∧ 0 < items - sizeAt packs (packs.length - 1) from
      ⟨by trivial, hfire⟩)]
    rw [if_neg (show ¬(packs.length - 1 = 0) by omega)]
    rw [show packs.length - 1 - 1 = packs.length - 2 from by omega]
    have hc1 : 0 < Int.tdiv items (sizeAt packs (packs.length - 1)) :=
      one_le_tdiv _ _ hs0 (by omega)
    simp only [finishStep, if_pos hc1]
    rw [if_pos hrem,
      if_neg (show ¬(packs.length - 1 < packs.length - 1) by omega)]
  · rw [if_neg hfire] at hrem ⊢
    rw [if_neg (fun hcon => hfire hcon.2)]
    by_cases hc1 : 0 < Int.tdiv items (sizeAt packs (packs.length - 1))
    · simp only [finishStep, if_pos hc1]
      rw [if_pos hrem,
        if_neg (show ¬(packs.length - 1 < packs.length - 1) by omega)]
    · simp only [finishStep, if_neg hc1]
      rw [if_pos hitems,
        if_neg (show ¬(packs.length - 1 < packs.length - 1) by omega)]

/-- C6 witness: catalog [{251}, {250}], remaining 100 at the last index:
count 100/250 = 0, no substitution, remainder 100 > 0, and the plan is
exactly the single fallback entry {250, 1}. -/
theorem terminal_fallback_entry_witness :
    calculatePacksRecursive [⟨"", 251⟩, ⟨"", 250⟩] 100 1 =
      some ((if 0 < Int.tdiv 100 250 then [⟨250, Int.tdiv 100 250⟩] else [])
        ++ [⟨250, 1⟩]) :=
  terminal_fallback_entry [⟨"", 251⟩, ⟨"", 250⟩] 100 (Int.tdiv 100 250) 250
    (by decide) (by decide) (by decide) (by decide) (by decide)
    (Or.inl (by decide)) (by decide)

/-- C4: for every non-empty descending catalog of positive sizes and
every positive demand, any plan the allocator returns ships at least the
demanded number of items: demand ≤ Σ entry.pack · entry.quantity. -/
theorem allocate_covers_demand (packs : List Pack) (items : Int)
    (plan : List PackQuantity) (hne : packs ≠ [])
    (hdesc : Descending packs) (hpos : ∀ p ∈ packs, 0 < p.size)
    (hd : 0 < items)
    (h : calculatePacksRecursive packs items 0 = some plan) :
    items ≤ planTotal plan := by
  have h0 : 0 < packs.length := List.length_pos.2 hne
  exact aux_covers packs hdesc hpos (packs.length - 0) items 0 plan
    (by omega) h0 hd h

/-- C4 witness: catalog [{500}, {250}], demand 700, plan
[{500,1}, {250,1}] ships 750 ≥ 700. -/
theorem allocate_covers_demand_witness :
    (700:Int) ≤ planTotal [⟨500, 1⟩, ⟨250, 1⟩] :=
  allocate_covers_demand [⟨"", 500⟩, ⟨"", 250⟩] 700 [⟨500, 1⟩, ⟨250, 1⟩]
    (by decide) (by norm_num [Descending, List.chain'_cons]) (by decide)
    (by decide) (by decide)

/-- C8: every entry of every plan produced by `calculatePacks` has a
strictly positive quantity, and its pack size is the size of some pack
of the input catalog. -/
theorem plan_entries_wellformed (packs : List Pack) (items : Int)
    (plan : List PackQuantity)
    (h : calculatePacks packs items = some plan) :
    ∀ e ∈ plan, 0 < e.quantity ∧ e.pack ∈ packs.map Pack.size := by
  intro e he
  obtain ⟨hq, hm⟩ := aux_entries (sortPacksDesc packs) _ items 0 plan h e he
  refine ⟨hq, ?_⟩
  have hperm : ((sortPacksDesc packs).map Pack.size).Perm
      (packs.map Pack.size) := (sortPacksDesc_perm packs).map Pack.size
  exact hperm.mem_iff.1 hm

/-- C8 witness: catalog [{500}, {250}], demand 300, plan [{500, 1}]:
quantity 1 > 0 and 500 is a catalog size. -/
theorem plan_entries_wellformed_witness :
    0 < (⟨500, 1⟩ : PackQuantity).quantity ∧
      (⟨500, 1⟩ : PackQuantity).pack ∈
        [Pack.mk "" 500, Pack.mk "" 250].map Pack.size :=
  plan_entries_wellformed [⟨"", 500⟩, ⟨"", 250⟩] 300 [⟨500, 1⟩] (by decide)
    ⟨500, 1⟩ (by decide)
